import Mathlib

/-!
Verification of the hydraulic-muscle physics/integration core of boidkit.

This file gives a shallow embedding of the functions in
`boidkit_simulation/hydraulic_muscle/physics.py` and
`boidkit_simulation/hydraulic_muscle/integrator.py`, and proves the
spec-level properties about them.  Machine floats are modelled as real
numbers; numpy arrays of per-vertex data as functions from vertex index
to value; the Python set of edges as a fold that inserts an edge only if
it is not already present.
-/

set_option maxHeartbeats 1000000

/-- A 3-component vector, modelling one row of a numpy (N, 3) array. -/
@[ext] structure Vec3 where
  x : ℝ
  y : ℝ
  z : ℝ

instance : Add Vec3 := ⟨fun a b => ⟨a.x + b.x, a.y + b.y, a.z + b.z⟩⟩

instance : Sub Vec3 := ⟨fun a b => ⟨a.x - b.x, a.y - b.y, a.z - b.z⟩⟩

instance : Neg Vec3 := ⟨fun a => ⟨-a.x, -a.y, -a.z⟩⟩

instance : SMul ℝ Vec3 := ⟨fun c v => ⟨c * v.x, c * v.y, c * v.z⟩⟩

instance : Zero Vec3 := ⟨⟨0, 0, 0⟩⟩

/-- Componentwise division of a vector by a scalar (numpy `v / c`). -/
noncomputable def Vec3.divS (v : Vec3) (c : ℝ) : Vec3 := ⟨v.x / c, v.y / c, v.z / c⟩

/-- Cross product (numpy `np.cross`). -/
noncomputable def cross3 (a b : Vec3) : Vec3 :=
  ⟨a.y * b.z - a.z * b.y, a.z * b.x - a.x * b.z, a.x * b.y - a.y * b.x⟩

/-- Euclidean norm (numpy `np.linalg.norm` on a 3-vector). -/
noncomputable def norm3 (v : Vec3) : ℝ := Real.sqrt (v.x ^ 2 + v.y ^ 2 + v.z ^ 2)

/- Physical constants from `constants.py`. -/

def TUBE_LENGTH : ℝ := 0.30

def TUBE_RADIUS : ℝ := 0.010

def RING_SPACING : ℝ := 0.020

def WALL_THICKNESS : ℝ := 0.001

def WALL_DENSITY : ℝ := 1100

def ELASTIC_MODULUS : ℝ := 1.0e6

def GRAVITY : ℝ := 9.81

def EXTERNAL_LOAD : ℝ := 10.0

def PRESSURE_AMPLITUDE : ℝ := 1.0e6

def PRESSURE_ON_DURATION : ℝ := 0.5

def PRESSURE_PERIOD : ℝ := 5.0

def DT : ℝ := 1.0e-4

def DAMPING_RATIO : ℝ := 0.02

def N_CIRCUMFERENTIAL : ℕ := 24

def N_AXIAL : ℕ := 60

def VIDEO_FPS : ℝ := 30

/-- A triangle of the mesh: an ordered triple of vertex indices. -/
structure Tri where
  a : ℕ
  b : ℕ
  c : ℕ

/-- A spring element `(i, j, rest_length, k)` as built by `build_springs`. -/
structure Spring where
  i : ℕ
  j : ℕ
  rest_length : ℝ
  k : ℝ

/-- Normalised undirected edge: `(min v1 v2, max v1 v2)`, as in
`edge = (min(v1, v2), max(v1, v2))`. -/
def normEdge (v1 v2 : ℕ) : ℕ × ℕ := (min v1 v2, max v1 v2)

/-- The three edges contributed by one triangle, in the order the Python
loop `for i in range(3)` visits them. -/
def triEdges (tr : Tri) : List (ℕ × ℕ) :=
  [normEdge tr.a tr.b, normEdge tr.b tr.c, normEdge tr.c tr.a]

/-- Model of `edges.add(edge)` on a Python set: append the edge only when
it is not already present. -/
def insertEdge (acc : List (ℕ × ℕ)) (e : ℕ × ℕ) : List (ℕ × ℕ) :=
  if e ∈ acc then acc else acc ++ [e]

/-- The deduplicated edge set accumulated over all triangles. -/
def collectEdges (triangles : List Tri) : List (ℕ × ℕ) :=
  triangles.foldl (fun acc tr => (triEdges tr).foldl insertEdge acc) []

/-- The spring built from one deduplicated edge: rest length from the
vertex positions, stiffness from the circumferential/axial
classification on the axial (z) displacement. -/
noncomputable def springOfEdge (vertices : ℕ → Vec3) (e : ℕ × ℕ) : Spring :=
  let rest_length := norm3 (vertices e.1 - vertices e.2)
  let dz := |(vertices e.1).z - (vertices e.2).z|
  let k :=
    if dz < 0.25 * RING_SPACING then
      ELASTIC_MODULUS * WALL_THICKNESS * RING_SPACING / rest_length
    else
      ELASTIC_MODULUS * WALL_THICKNESS *
        (2 * Real.pi * TUBE_RADIUS / N_CIRCUMFERENTIAL) / rest_length
  ⟨e.1, e.2, rest_length, k⟩

/-- Embedding of `build_springs(vertices, triangles)`. -/
noncomputable def build_springs (vertices : ℕ → Vec3) (triangles : List Tri) :
    List Spring :=
  (collectEdges triangles).map (springOfEdge vertices)

/-- Model of numpy `forces[idx] += v` on a per-vertex force array. -/
noncomputable def addAt (forces : ℕ → Vec3) (idx : ℕ) (v : Vec3) : ℕ → Vec3 :=
  fun n => if n = idx then forces n + v else forces n

/-- The `force_vec` computed for one spring in `compute_spring_forces`:
magnitude `k * (length - rest_length)` along the unit vector from `i`
to `j`. -/
noncomputable def force_vec (positions : ℕ → Vec3) (s : Spring) : Vec3 :=
  let displacement := positions s.j - positions s.i
  let length := norm3 displacement
  let direction := displacement.divS length
  (s.k * (length - s.rest_length)) • direction

/-- One iteration of the spring loop in `compute_spring_forces`: skip the
spring when its current length is below the 1e-10 floor, otherwise add
`force_vec` at `i` and its negation at `j`. -/
noncomputable def springStep (positions : ℕ → Vec3) (forces : ℕ → Vec3)
    (s : Spring) : ℕ → Vec3 :=
  let displacement := positions s.j - positions s.i
  let length := norm3 displacement
  if length < 1e-10 then forces
  else addAt (addAt forces s.i (force_vec positions s)) s.j (-(force_vec positions s))

/-- Embedding of `compute_spring_forces(vertices, springs)`. -/
noncomputable def compute_spring_forces (positions : ℕ → Vec3)
    (springs : List Spring) : ℕ → Vec3 :=
  springs.foldl (springStep positions) (fun _ => 0)

/-- Triangle area `0.5 * norm(cross(v1 - v0, v2 - v0))` as computed in
`compute_pressure_forces`. -/
noncomputable def triArea (positions : ℕ → Vec3) (tr : Tri) : ℝ :=
  0.5 * norm3 (cross3 (positions tr.b - positions tr.a) (positions tr.c - positions tr.a))

/-- One iteration of the triangle loop in `compute_pressure_forces`: skip
the triangle when its area is below the 1e-10 floor, otherwise add
`pressure * area * unit_normal / 3` at each of the three vertices. -/
noncomputable def pressureStep (positions : ℕ → Vec3) (pressure : ℝ)
    (forces : ℕ → Vec3) (tr : Tri) : ℕ → Vec3 :=
  let normal := cross3 (positions tr.b - positions tr.a) (positions tr.c - positions tr.a)
  let area := 0.5 * norm3 normal
  if area < 1e-10 then forces
  else
    let unitNormal := normal.divS (2 * area)
    let force := ((pressure * area) • unitNormal).divS 3
    addAt (addAt (addAt forces tr.a force) tr.b force) tr.c force

/-- Embedding of `compute_pressure_forces(vertices, triangles, pressure)`:
short-circuits to the zero array when `pressure <= 0`. -/
noncomputable def compute_pressure_forces (positions : ℕ → Vec3)
    (triangles : List Tri) (pressure : ℝ) : ℕ → Vec3 :=
  if pressure ≤ 0 then (fun _ => 0)
  else triangles.foldl (pressureStep positions pressure) (fun _ => 0)

/-- Model of numpy `forces[idx, 2] += c`. -/
noncomputable def addZ (forces : ℕ → Vec3) (idx : ℕ) (c : ℝ) : ℕ → Vec3 :=
  fun n => if n = idx then ⟨(forces n).x, (forces n).y, (forces n).z + c⟩ else forces n

/-- Embedding of `apply_external_load(forces, end_vertices, load)`: both
per-vertex shares are `load / len(end_vertices[0])`; the second group is
pushed down, the first pushed up. -/
noncomputable def apply_external_load (forces : ℕ → Vec3)
    (end_vertices : List ℕ × List ℕ) (load : ℝ) : ℕ → Vec3 :=
  let n_end : ℕ := end_vertices.1.length
  let f1 := end_vertices.2.foldl (fun fs idx => addZ fs idx (-(load / n_end))) forces
  end_vertices.1.foldl (fun fs idx => addZ fs idx (load / n_end)) f1

/-- One vertex of the ring loop in `compute_ring_constraints`: a stiff
radial restoring force plus radial velocity damping, both touching only
the x and y components. -/
noncomputable def ringVertStep (positions velocities original_vertices : ℕ → Vec3)
    (forces : ℕ → Vec3) (idx : ℕ) : ℕ → Vec3 :=
  let orig_pos := original_vertices idx
  let curr_pos := positions idx
  let r_orig := Real.sqrt (orig_pos.x ^ 2 + orig_pos.y ^ 2)
  if r_orig < 1e-10 then forces
  else
    let r_curr := Real.sqrt (curr_pos.x ^ 2 + curr_pos.y ^ 2)
    if r_curr < 1e-10 then forces
    else
      let xdir := curr_pos.x / r_curr
      let ydir := curr_pos.y / r_curr
      let k_ring : ℝ := 1e7
      let fs1 : ℕ → Vec3 := fun n =>
        if n = idx then
          ⟨(forces n).x + (-k_ring * (r_curr - r_orig) * xdir),
           (forces n).y + (-k_ring * (r_curr - r_orig) * ydir),
           (forces n).z⟩
        else forces n
      fun n =>
        if n = idx then
          ⟨(fs1 n).x + (-200 * (velocities idx).x),
           (fs1 n).y + (-200 * (velocities idx).y),
           (fs1 n).z⟩
        else fs1 n

/-- Embedding of
`compute_ring_constraints(vertices, velocities, ring_indices, original_vertices)`. -/
noncomputable def compute_ring_constraints (positions velocities : ℕ → Vec3)
    (ring_indices : List (List ℕ)) (original_vertices : ℕ → Vec3) : ℕ → Vec3 :=
  ring_indices.foldl
    (fun forces ring => ring.foldl (ringVertStep positions velocities original_vertices) forces)
    (fun _ => 0)

/-- Python float `a % b` for a positive modulus: `a - b * floor(a / b)`. -/
noncomputable def fmod (a b : ℝ) : ℝ := a - b * ⌊a / b⌋

/-- Embedding of `pressure_at_time(t)`: the square-wave pressure policy. -/
noncomputable def pressure_at_time (t : ℝ) : ℝ :=
  if fmod t PRESSURE_PERIOD < PRESSURE_ON_DURATION then PRESSURE_AMPLITUDE else 0

/-- `tube_volume` as computed in `simulate`. -/
noncomputable def tube_volume : ℝ :=
  Real.pi * (2 * TUBE_RADIUS) * TUBE_LENGTH * WALL_THICKNESS

/-- `total_mass = tube_volume * WALL_DENSITY`. -/
noncomputable def total_mass : ℝ := tube_volume * WALL_DENSITY

/-- The per-vertex mass array `np.ones(n) * (total_mass / n)`, computed
once before the simulation loop. -/
noncomputable def massFn (n_vertices : ℕ) : ℕ → ℝ :=
  fun _ => total_mass / n_vertices

/-- The inputs of `simulate` that stay fixed across the run. -/
structure SimConfig where
  n_vertices : ℕ
  vertices : ℕ → Vec3
  triangles : List Tri
  springs : List Spring
  ring_indices : List (List ℕ)
  end_vertices : List ℕ × List ℕ
  t_end : ℝ
  dt : ℝ
  fps : ℝ

/-- The mutable state of the simulation loop in `simulate`. -/
structure SimState where
  t : ℝ
  positions : ℕ → Vec3
  velocities : ℕ → Vec3
  nextFrameTime : ℝ
  frames : List (ℕ → Vec3)

/-- State at the top of the loop: `t = 0`, positions copied from the
input vertices, zero velocities, `next_frame_time = 0`, no frames. -/
noncomputable def initState (cfg : SimConfig) : SimState :=
  ⟨0, cfg.vertices, fun _ => 0, 0, []⟩

/-- The net force accumulated in one loop iteration of `simulate`:
spring + pressure forces, external load, ring constraints, and the
global damping term `-DAMPING_RATIO * velocities`. -/
noncomputable def netForce (cfg : SimConfig) (s : SimState) : ℕ → Vec3 :=
  let pressure := pressure_at_time s.t
  let spring_forces := compute_spring_forces s.positions cfg.springs
  let pressure_forces := compute_pressure_forces s.positions cfg.triangles pressure
  let f2 := fun v => spring_forces v + pressure_forces v
  let f3 := apply_external_load f2 cfg.end_vertices EXTERNAL_LOAD
  let constraint_forces :=
    compute_ring_constraints s.positions s.velocities cfg.ring_indices cfg.vertices
  fun v => f3 v + constraint_forces v + (- DAMPING_RATIO) • s.velocities v

/-- One iteration of the `while t < t_end` loop of `simulate`:
acceleration from net force and mass, semi-implicit Euler update
(velocity first, position with the new velocity), then the frame-sample
check `t >= next_frame_time`, then `t += dt`. -/
noncomputable def advance (cfg : SimConfig) (s : SimState) : SimState :=
  let forces := netForce cfg s
  let accelerations := fun v => (forces v).divS (massFn cfg.n_vertices v)
  let velocities' := fun v => s.velocities v + cfg.dt • accelerations v
  let positions' := fun v => s.positions v + cfg.dt • velocities' v
  { t := s.t + cfg.dt
    positions := positions'
    velocities := velocities'
    nextFrameTime :=
      if s.nextFrameTime ≤ s.t then s.nextFrameTime + 1 / cfg.fps else s.nextFrameTime
    frames :=
      if s.nextFrameTime ≤ s.t then s.frames ++ [positions'] else s.frames }

/-- The simulation loop: run `advance` while `t < t_end`, with enough
fuel supplied by `simulateState` to reach the exit condition. -/
noncomputable def simLoop (cfg : SimConfig) : ℕ → SimState → SimState
  | 0, s => s
  | fuel + 1, s => if s.t < cfg.t_end then simLoop cfg fuel (advance cfg s) else s

/-- Fuel sufficient for the loop to reach `t >= t_end`. -/
noncomputable def simFuel (cfg : SimConfig) : ℕ := ⌈cfg.t_end / cfg.dt⌉₊ + 1

/-- The final state of the (uninterrupted) simulation loop. -/
noncomputable def simulateState (cfg : SimConfig) : SimState :=
  simLoop cfg (simFuel cfg) (initState cfg)

/-- Embedding of `simulate`: the list of collected frames. -/
noncomputable def simulate (cfg : SimConfig) : List (ℕ → Vec3) :=
  (simulateState cfg).frames

/-- The simulation loop with a cancellation arriving before iteration
`cancelAt` (the `KeyboardInterrupt` handler of `simulate`): on
cancellation, return the collected frames when at least one exists,
otherwise re-raise (modelled as `Except.error`). -/
noncomputable def simLoopInterrupted (cfg : SimConfig) :
    ℕ → ℕ → SimState → Except Unit (List (ℕ → Vec3))
  | 0, _, s => if s.frames.isEmpty then .error () else .ok s.frames
  | _ + 1, 0, s => .ok s.frames
  | c + 1, fuel + 1, s =>
      if s.t < cfg.t_end then simLoopInterrupted cfg c fuel (advance cfg s) else .ok s.frames

/-- The scheduled sample instant of the m-th recorded frame: the value of
`next_frame_time` that the frame's recording satisfied. -/
noncomputable def sampleTime (fps : ℝ) (m : ℕ) : ℝ := m * (1 / fps)

/-- A concrete trivial configuration (empty mesh) used to instantiate
hypotheses of the loop-level theorems. -/
noncomputable def cfgEx : SimConfig :=
  { n_vertices := 0
    vertices := fun _ => 0
    triangles := []
    springs := []
    ring_indices := []
    end_vertices := ([], [])
    t_end := 1
    dt := 1
    fps := 1 }

@[simp] theorem Vec3.add_x (a b : Vec3) : (a + b).x = a.x + b.x := rfl

@[simp] theorem Vec3.add_y (a b : Vec3) : (a + b).y = a.y + b.y := rfl

@[simp] theorem Vec3.add_z (a b : Vec3) : (a + b).z = a.z + b.z := rfl

@[simp] theorem Vec3.sub_x (a b : Vec3) : (a - b).x = a.x - b.x := rfl

@[simp] theorem Vec3.sub_y (a b : Vec3) : (a - b).y = a.y - b.y := rfl

@[simp] theorem Vec3.sub_z (a b : Vec3) : (a - b).z = a.z - b.z := rfl

@[simp] theorem Vec3.neg_x (a : Vec3) : (-a).x = -a.x := rfl

@[simp] theorem Vec3.neg_y (a : Vec3) : (-a).y = -a.y := rfl

@[simp] theorem Vec3.neg_z (a : Vec3) : (-a).z = -a.z := rfl

@[simp] theorem Vec3.smul_x (c : ℝ) (a : Vec3) : (c • a).x = c * a.x := rfl

@[simp] theorem Vec3.smul_y (c : ℝ) (a : Vec3) : (c • a).y = c * a.y := rfl

@[simp] theorem Vec3.smul_z (c : ℝ) (a : Vec3) : (c • a).z = c * a.z := rfl

@[simp] theorem Vec3.zero_x : (0 : Vec3).x = 0 := rfl

@[simp] theorem Vec3.zero_y : (0 : Vec3).y = 0 := rfl

@[simp] theorem Vec3.zero_z : (0 : Vec3).z = 0 := rfl

@[simp] theorem Vec3.divS_x (v : Vec3) (c : ℝ) : (v.divS c).x = v.x / c := rfl

@[simp] theorem Vec3.divS_y (v : Vec3) (c : ℝ) : (v.divS c).y = v.y / c := rfl

@[simp] theorem Vec3.divS_z (v : Vec3) (c : ℝ) : (v.divS c).z = v.z / c := rfl

theorem norm3_sub_self (v : Vec3) : norm3 (v - v) = 0 := by
  simp [norm3]

theorem norm3_zero : norm3 0 = 0 := by
  simp [norm3]

theorem fmod_add_right (t : ℝ) {p : ℝ} (hp : p ≠ 0) : fmod (t + p) p = fmod t p := by
  unfold fmod
  have h : (t + p) / p = t / p + 1 := by field_simp
  rw [h, Int.floor_add_one]
  push_cast
  ring

/-- Claim C4: for every t >= 0, `pressure_at_time t` is the amplitude when
`t mod period < on_duration` and 0 otherwise, and the policy is periodic:
`pressure_at_time (t + period) = pressure_at_time t`; it is a
deterministic, stateless function of time alone. -/
theorem pressure_policy_periodic (t : ℝ) (ht : 0 ≤ t) :
    (fmod t PRESSURE_PERIOD < PRESSURE_ON_DURATION →
      pressure_at_time t = PRESSURE_AMPLITUDE) ∧
    (¬ fmod t PRESSURE_PERIOD < PRESSURE_ON_DURATION → pressure_at_time t = 0) ∧
    pressure_at_time (t + PRESSURE_PERIOD) = pressure_at_time t := by
  refine ⟨fun h => if_pos h, fun h => if_neg h, ?_⟩
  unfold pressure_at_time
  rw [fmod_add_right t (by norm_num [PRESSURE_PERIOD])]

/-- Witness for C4 at t = 0. -/
theorem pressure_policy_periodic_witness :
    (0 : ℝ) ≤ 0 ∧
    ((fmod 0 PRESSURE_PERIOD < PRESSURE_ON_DURATION →
        pressure_at_time 0 = PRESSURE_AMPLITUDE) ∧
      (¬ fmod 0 PRESSURE_PERIOD < PRESSURE_ON_DURATION → pressure_at_time 0 = 0) ∧
      pressure_at_time (0 + PRESSURE_PERIOD) = pressure_at_time 0) :=
  ⟨le_refl 0, pressure_policy_periodic 0 (le_refl 0)⟩

theorem ringVertStep_z (positions velocities original_vertices forces : ℕ → Vec3)
    (idx n : ℕ) :
    (ringVertStep positions velocities original_vertices forces idx n).z =
      (forces n).z := by
  unfold ringVertStep
  by_cases h1 :
      Real.sqrt ((original_vertices idx).x ^ 2 + (original_vertices idx).y ^ 2) < 1e-10
  · simp [h1]
  · by_cases h2 : Real.sqrt ((positions idx).x ^ 2 + (positions idx).y ^ 2) < 1e-10
    · simp [h1, h2]
    · by_cases h : n = idx <;> simp [h1, h2, h]

theorem foldl_ringVertStep_z (positions velocities original_vertices : ℕ → Vec3)
    (ring : List ℕ) (forces : ℕ → Vec3) (n : ℕ) :
    ((ring.foldl (ringVertStep positions velocities original_vertices) forces) n).z =
      (forces n).z := by
  induction ring generalizing forces with
  | nil => rfl
  | cons idx rest ih =>
      rw [List.foldl_cons, ih, ringVertStep_z]

theorem foldl_rings_z (positions velocities original_vertices : ℕ → Vec3)
    (rings : List (List ℕ)) (forces : ℕ → Vec3) (n : ℕ) :
    ((rings.foldl
        (fun fs ring => ring.foldl (ringVertStep positions velocities original_vertices) fs)
        forces) n).z = (forces n).z := by
  induction rings generalizing forces with
  | nil => rfl
  | cons ring rest ih =>
      rw [List.foldl_cons, ih, foldl_ringVertStep_z]

/-- Claim C7: the force array returned by `compute_ring_constraints` has a
zero axial (z) component at every vertex; the radial restoring and
damping terms modify only the in-plane (x, y) coordinates. -/
theorem ring_constraint_axial_free (positions velocities : ℕ → Vec3)
    (ring_indices : List (List ℕ)) (original_vertices : ℕ → Vec3) (n : ℕ) :
    (compute_ring_constraints positions velocities ring_indices original_vertices n).z
      = 0 := by
  unfold compute_ring_constraints
  rw [foldl_rings_z]
  simp

/-- Claim C1: every step of `simulate` performs semi-implicit Euler in the
specified order: with net force computed from the current state, and
acceleration force / per-vertex mass, the new velocity is
v + dt * a and the new position is x + dt * v_new (velocity updated
before, and used by, the position update); the per-vertex mass is
uniform, equal to the thin-shell estimate divided by vertex count, and
fixed across all iterations. -/
theorem simulate_semi_implicit_euler (cfg : SimConfig) (k v : ℕ) :
    ((advance cfg)^[k + 1] (initState cfg)).velocities v =
      ((advance cfg)^[k] (initState cfg)).velocities v +
        cfg.dt • (netForce cfg ((advance cfg)^[k] (initState cfg)) v).divS
          (massFn cfg.n_vertices v) ∧
    ((advance cfg)^[k + 1] (initState cfg)).positions v =
      ((advance cfg)^[k] (initState cfg)).positions v +
        cfg.dt • ((advance cfg)^[k + 1] (initState cfg)).velocities v ∧
    massFn cfg.n_vertices v = total_mass / cfg.n_vertices ∧
    ∀ w, massFn cfg.n_vertices w = massFn cfg.n_vertices v := by
  rw [Function.iterate_succ_apply']
  exact ⟨rfl, rfl, rfl, fun w => rfl⟩

theorem smul_zero_vec3 (v : Vec3) : (0 : ℝ) • v = 0 := by
  ext <;> simp

/-- Claim C3: for every spring whose current length L is at least 1e-10,
`compute_spring_forces` adds to vertex i the vector
k * (L - rest_length) * u (u the unit vector from i to j) and adds
exactly the negated vector to vertex j, so the two per-spring
contributions are exactly equal and opposite; a spring at exactly its
rest length contributes zero force to both endpoints. -/
theorem spring_force_newton_third (positions forces : ℕ → Vec3) (s : Spring)
    (h : 1e-10 ≤ norm3 (positions s.j - positions s.i)) :
    s.i ≠ s.j ∧
    force_vec positions s =
      (s.k * (norm3 (positions s.j - positions s.i) - s.rest_length)) •
        (positions s.j - positions s.i).divS (norm3 (positions s.j - positions s.i)) ∧
    springStep positions forces s s.i = forces s.i + force_vec positions s ∧
    springStep positions forces s s.j = forces s.j + (-(force_vec positions s)) ∧
    (norm3 (positions s.j - positions s.i) = s.rest_length →
      force_vec positions s = 0) := by
  have hij : s.i ≠ s.j := by
    intro e
    rw [e, norm3_sub_self] at h
    norm_num at h
  have hlen : ¬ norm3 (positions s.j - positions s.i) < 1e-10 := not_lt.mpr h
  have hstep : springStep positions forces s =
      addAt (addAt forces s.i (force_vec positions s)) s.j (-(force_vec positions s)) := by
    unfold springStep
    rw [if_neg hlen]
  refine ⟨hij, rfl, ?_, ?_, ?_⟩
  · rw [hstep]
    unfold addAt
    rw [if_neg hij, if_pos rfl]
  · rw [hstep]
    unfold addAt
    rw [if_pos rfl, if_neg (fun e => hij e.symm)]
  · intro hrest
    show (s.k * (norm3 (positions s.j - positions s.i) - s.rest_length)) •
        (positions s.j - positions s.i).divS (norm3 (positions s.j - positions s.i)) = 0
    rw [hrest, sub_self, mul_zero, smul_zero_vec3]

/-- Witness for C3: two vertices at distance 1, spring (0, 1) with rest
length 1 and stiffness 2. -/
theorem spring_force_newton_third_witness :
    (1e-10 : ℝ) ≤
      norm3 ((fun n => if n = 0 then (0 : Vec3) else ⟨1, 0, 0⟩) (Spring.mk 0 1 1 2).j -
        (fun n => if n = 0 then (0 : Vec3) else ⟨1, 0, 0⟩) (Spring.mk 0 1 1 2).i) ∧
    (Spring.mk 0 1 1 2).i ≠ (Spring.mk 0 1 1 2).j ∧
    springStep (fun n => if n = 0 then (0 : Vec3) else ⟨1, 0, 0⟩) (fun _ => 0)
        (Spring.mk 0 1 1 2) (Spring.mk 0 1 1 2).i =
      (fun _ => (0 : Vec3)) (Spring.mk 0 1 1 2).i +
        force_vec (fun n => if n = 0 then (0 : Vec3) else ⟨1, 0, 0⟩) (Spring.mk 0 1 1 2) ∧
    springStep (fun n => if n = 0 then (0 : Vec3) else ⟨1, 0, 0⟩) (fun _ => 0)
        (Spring.mk 0 1 1 2) (Spring.mk 0 1 1 2).j =
      (fun _ => (0 : Vec3)) (Spring.mk 0 1 1 2).j +
        (-(force_vec (fun n => if n = 0 then (0 : Vec3) else ⟨1, 0, 0⟩)
            (Spring.mk 0 1 1 2))) := by
  have hnorm :
      norm3 ((fun n => if n = 0 then (0 : Vec3) else ⟨1, 0, 0⟩) (Spring.mk 0 1 1 2).j -
        (fun n => if n = 0 then (0 : Vec3) else ⟨1, 0, 0⟩) (Spring.mk 0 1 1 2).i) = 1 := by
    show norm3 ((⟨1, 0, 0⟩ : Vec3) - 0) = 1
    unfold norm3
    norm_num
  have h : (1e-10 : ℝ) ≤
      norm3 ((fun n => if n = 0 then (0 : Vec3) else ⟨1, 0, 0⟩) (Spring.mk 0 1 1 2).j -
        (fun n => if n = 0 then (0 : Vec3) else ⟨1, 0, 0⟩) (Spring.mk 0 1 1 2).i) := by
    rw [hnorm]; norm_num
  have main := spring_force_newton_third
    (fun n => if n = 0 then (0 : Vec3) else ⟨1, 0, 0⟩) (fun _ => 0) (Spring.mk 0 1 1 2) h
  exact ⟨h, main.1, main.2.2.1, main.2.2.2.1⟩

/-- Claim C9: force accumulation is total under degenerate geometry: a
spring with current length below 1e-10 is skipped and contributes no
force; a triangle with area below 1e-10 is skipped and contributes no
pressure force; and `compute_pressure_forces` returns the all-zero force
array whenever pressure <= 0, short-circuiting before any per-triangle
computation. -/
theorem degenerate_geometry_guards :
    (∀ (positions forces : ℕ → Vec3) (s : Spring),
        norm3 (positions s.j - positions s.i) < 1e-10 →
        springStep positions forces s = forces) ∧
    (∀ (positions : ℕ → Vec3) (pressure : ℝ) (forces : ℕ → Vec3) (tr : Tri),
        triArea positions tr < 1e-10 →
        pressureStep positions pressure forces tr = forces) ∧
    (∀ (positions : ℕ → Vec3) (triangles : List Tri) (pressure : ℝ),
        pressure ≤ 0 →
        compute_pressure_forces positions triangles pressure = fun _ => 0) := by
  refine ⟨?_, ?_, ?_⟩
  · intro positions forces s h
    unfold springStep
    rw [if_pos h]
  · intro positions pressure forces tr h
    have h' : 0.5 * norm3 (cross3 (positions tr.b - positions tr.a)
        (positions tr.c - positions tr.a)) < 1e-10 := h
    simp only [pressureStep]
    rw [if_pos h']
  · intro positions triangles pressure h
    unfold compute_pressure_forces
    rw [if_pos h]

/-- Witness for C9: a zero-length spring, a zero-area triangle, and zero
pressure. -/
theorem degenerate_geometry_guards_witness :
    (norm3 ((fun _ => (0 : Vec3)) (Spring.mk 0 1 1 1).j -
        (fun _ => (0 : Vec3)) (Spring.mk 0 1 1 1).i) < 1e-10 ∧
      springStep (fun _ => (0 : Vec3)) (fun _ => 0) (Spring.mk 0 1 1 1) = fun _ => 0) ∧
    (triArea (fun _ => (0 : Vec3)) (Tri.mk 0 1 2) < 1e-10 ∧
      pressureStep (fun _ => (0 : Vec3)) 1 (fun _ => 0) (Tri.mk 0 1 2) = fun _ => 0) ∧
    ((0 : ℝ) ≤ 0 ∧
      compute_pressure_forces (fun _ => (0 : Vec3)) [Tri.mk 0 1 2] 0 = fun _ => 0) := by
  have h1 : norm3 ((fun _ => (0 : Vec3)) (Spring.mk 0 1 1 1).j -
      (fun _ => (0 : Vec3)) (Spring.mk 0 1 1 1).i) < 1e-10 := by
    show norm3 ((0 : Vec3) - 0) < 1e-10
    rw [norm3_sub_self]
    norm_num
  have h2 : triArea (fun _ => (0 : Vec3)) (Tri.mk 0 1 2) < 1e-10 := by
    unfold triArea
    show 0.5 * norm3 (cross3 ((0 : Vec3) - 0) ((0 : Vec3) - 0)) < 1e-10
    have : cross3 ((0 : Vec3) - 0) ((0 : Vec3) - 0) = 0 := by
      unfold cross3
      ext <;> simp
    rw [this, norm3_zero]
    norm_num
  exact ⟨⟨h1, degenerate_geometry_guards.1 _ _ _ h1⟩,
    ⟨h2, degenerate_geometry_guards.2.1 _ 1 _ _ h2⟩,
    ⟨le_refl 0, degenerate_geometry_guards.2.2 _ [Tri.mk 0 1 2] 0 (le_refl 0)⟩⟩

theorem foldl_addZ_apply (c : ℝ) (L : List ℕ) (fs : ℕ → Vec3) (n : ℕ) :
    (L.foldl (fun g idx => addZ g idx c) fs) n =
      ⟨(fs n).x, (fs n).y, (fs n).z + c * L.count n⟩ := by
  induction L generalizing fs with
  | nil => simp
  | cons hd tl ih =>
      rw [List.foldl_cons, ih]
      by_cases h : n = hd
      · subst h
        simp only [addZ, if_pos rfl, List.count_cons_self]
        refine Vec3.ext rfl rfl ?_
        push_cast
        ring
      · simp only [addZ, if_neg h]
        refine Vec3.ext rfl rfl ?_
        rw [List.count_cons_of_ne h]

theorem apply_external_load_apply (forces : ℕ → Vec3) (ev : List ℕ × List ℕ)
    (load : ℝ) (n : ℕ) :
    apply_external_load forces ev load n =
      ⟨(forces n).x, (forces n).y,
        (forces n).z + (-(load / ev.1.length)) * ev.2.count n +
          (load / ev.1.length) * ev.1.count n⟩ := by
  unfold apply_external_load
  rw [foldl_addZ_apply, foldl_addZ_apply]

theorem sum_map_eq_length_mul (L : List ℕ) (f : ℕ → ℝ) (c : ℝ)
    (h : ∀ v ∈ L, f v = c) : (L.map f).sum = L.length * c := by
  induction L with
  | nil => simp
  | cons hd tl ih =>
      rw [List.map_cons, List.sum_cons, h hd (List.mem_cons_self hd tl),
        ih (fun v hv => h v (List.mem_cons_of_mem hd hv)), List.length_cons]
      push_cast
      ring

/-- Counterexample to C8 as stated: with end groups of unequal sizes
([0] and [1, 2]) the total force added on the second group is
-2 * load, not -load, because both per-vertex shares divide by the size
of the first group. -/
theorem external_load_balanced_counterexample :
    ¬ ((([1, 2] : List ℕ).map (fun v =>
        (apply_external_load (fun _ => 0) (([0], [1, 2]) : List ℕ × List ℕ)
            EXTERNAL_LOAD v).z - ((fun _ => (0 : Vec3)) v).z)).sum = -EXTERNAL_LOAD) := by
  intro hcl
  rw [List.map_cons, List.map_cons, List.map_nil, List.sum_cons, List.sum_cons,
    List.sum_nil, apply_external_load_apply, apply_external_load_apply] at hcl
  norm_num [EXTERNAL_LOAD] at hcl

/-- Claim C8 (amended): for every pair of end-vertex groups that are
duplicate-free, disjoint, nonempty and of equal size,
`apply_external_load` adds a total downward force of magnitude `load`
split evenly across the second group and an equal-and-opposite total
upward force across the first group; non-end entries and all x and y
components are unchanged. -/
theorem external_load_balanced (forces : ℕ → Vec3) (g0 g1 : List ℕ) (load : ℝ)
    (hn0 : g0.Nodup) (hn1 : g1.Nodup) (hdisj : ∀ v, v ∈ g0 → v ∉ g1)
    (hne : g0 ≠ []) (hlen : g0.length = g1.length) :
    (∀ v, v ∉ g0 → v ∉ g1 → apply_external_load forces (g0, g1) load v = forces v) ∧
    (∀ v, (apply_external_load forces (g0, g1) load v).x = (forces v).x ∧
      (apply_external_load forces (g0, g1) load v).y = (forces v).y) ∧
    (∀ v ∈ g1, (apply_external_load forces (g0, g1) load v).z =
      (forces v).z - load / g0.length) ∧
    (∀ v ∈ g0, (apply_external_load forces (g0, g1) load v).z =
      (forces v).z + load / g0.length) ∧
    (g1.map (fun v => (apply_external_load forces (g0, g1) load v).z - (forces v).z)).sum
      = -load ∧
    (g0.map (fun v => (apply_external_load forces (g0, g1) load v).z - (forces v).z)).sum
      = load := by
  have hlen0 : (g0.length : ℝ) ≠ 0 :=
    Nat.cast_ne_zero.mpr (fun h => hne (List.length_eq_zero.mp h))
  have hz1 : ∀ v ∈ g1, (apply_external_load forces (g0, g1) load v).z =
      (forces v).z - load / g0.length := by
    intro v hv
    have hv0 : v ∉ g0 := fun hv0 => hdisj v hv0 hv
    rw [apply_external_load_apply]
    simp only [List.count_eq_zero_of_not_mem hv0,
      List.count_eq_one_of_mem hn1 hv]
    push_cast
    ring
  have hz0 : ∀ v ∈ g0, (apply_external_load forces (g0, g1) load v).z =
      (forces v).z + load / g0.length := by
    intro v hv
    have hv1 : v ∉ g1 := hdisj v hv
    rw [apply_external_load_apply]
    simp only [List.count_eq_zero_of_not_mem hv1,
      List.count_eq_one_of_mem hn0 hv]
    push_cast
    ring
  refine ⟨?_, ?_, hz1, hz0, ?_, ?_⟩
  · intro v hv0 hv1
    rw [apply_external_load_apply]
    simp only [List.count_eq_zero_of_not_mem hv0, List.count_eq_zero_of_not_mem hv1]
    refine Vec3.ext rfl rfl ?_
    push_cast
    ring
  · intro v
    rw [apply_external_load_apply]
    exact ⟨rfl, rfl⟩
  · rw [sum_map_eq_length_mul g1 _ (-(load / g0.length))
      (fun v hv => by rw [hz1 v hv]; ring)]
    rw [← hlen]
    field_simp
    ring
  · rw [sum_map_eq_length_mul g0 _ (load / g0.length)
      (fun v hv => by rw [hz0 v hv]; ring)]
    field_simp

/-- Witness for the amended C8 with groups [0] and [1]. -/
theorem external_load_balanced_witness :
    (([0] : List ℕ).Nodup ∧ ([1] : List ℕ).Nodup ∧
      (∀ v, v ∈ ([0] : List ℕ) → v ∉ ([1] : List ℕ)) ∧
      ([0] : List ℕ) ≠ [] ∧ ([0] : List ℕ).length = ([1] : List ℕ).length) ∧
    ((([1] : List ℕ).map (fun v =>
        (apply_external_load (fun _ => 0) (([0], [1]) : List ℕ × List ℕ) 10 v).z -
          ((fun _ => (0 : Vec3)) v).z)).sum = -10 ∧
      (([0] : List ℕ).map (fun v =>
        (apply_external_load (fun _ => 0) (([0], [1]) : List ℕ × List ℕ) 10 v).z -
          ((fun _ => (0 : Vec3)) v).z)).sum = 10) := by
  have h := external_load_balanced (fun _ => 0) [0] [1] 10
    (by decide) (by decide) (by decide) (by decide) (by decide)
  exact ⟨⟨by decide, by decide, by decide, by decide, by decide⟩,
    h.2.2.2.2.1, h.2.2.2.2.2⟩

theorem mem_insertEdge (acc : List (ℕ × ℕ)) (e x : ℕ × ℕ) :
    x ∈ insertEdge acc e ↔ x ∈ acc ∨ x = e := by
  by_cases h : e ∈ acc
  · simp only [insertEdge, if_pos h]
    constructor
    · exact Or.inl
    · rintro (hx | rfl)
      · exact hx
      · exact h
  · simp [insertEdge, if_neg h, List.mem_append]

theorem nodup_insertEdge (acc : List (ℕ × ℕ)) (e : ℕ × ℕ) (h : acc.Nodup) :
    (insertEdge acc e).Nodup := by
  unfold insertEdge
  split
  · exact h
  · rename_i he
    rw [List.nodup_append]
    exact ⟨h, List.nodup_singleton e, fun a ha hb => he (List.mem_singleton.mp hb ▸ ha)⟩

theorem mem_foldl_insertEdge (l : List (ℕ × ℕ)) (acc : List (ℕ × ℕ)) (x : ℕ × ℕ) :
    x ∈ l.foldl insertEdge acc ↔ x ∈ acc ∨ x ∈ l := by
  induction l generalizing acc with
  | nil => simp
  | cons hd tl ih =>
      rw [List.foldl_cons, ih, mem_insertEdge, List.mem_cons]
      tauto

theorem nodup_foldl_insertEdge (l : List (ℕ × ℕ)) (acc : List (ℕ × ℕ))
    (h : acc.Nodup) : (l.foldl insertEdge acc).Nodup := by
  induction l generalizing acc with
  | nil => exact h
  | cons hd tl ih =>
      rw [List.foldl_cons]
      exact ih _ (nodup_insertEdge _ _ h)

theorem mem_collectEdges_aux (ts : List Tri) (acc : List (ℕ × ℕ)) (x : ℕ × ℕ) :
    x ∈ ts.foldl (fun acc tr => (triEdges tr).foldl insertEdge acc) acc ↔
      x ∈ acc ∨ ∃ tr ∈ ts, x ∈ triEdges tr := by
  induction ts generalizing acc with
  | nil => simp
  | cons hd tl ih =>
      rw [List.foldl_cons, ih, mem_foldl_insertEdge]
      constructor
      · rintro ((hx | hx) | ⟨tr, htr, hx⟩)
        · exact Or.inl hx
        · exact Or.inr ⟨hd, List.mem_cons_self hd tl, hx⟩
        · exact Or.inr ⟨tr, List.mem_cons_of_mem hd htr, hx⟩
      · rintro (hx | ⟨tr, htr, hx⟩)
        · exact Or.inl (Or.inl hx)
        · rcases List.mem_cons.mp htr with rfl | htl
          · exact Or.inl (Or.inr hx)
          · exact Or.inr ⟨tr, htl, hx⟩

theorem mem_collectEdges (ts : List Tri) (x : ℕ × ℕ) :
    x ∈ collectEdges ts ↔ ∃ tr ∈ ts, x ∈ triEdges tr := by
  unfold collectEdges
  rw [mem_collectEdges_aux]
  simp

theorem nodup_collectEdges_aux (ts : List Tri) (acc : List (ℕ × ℕ))
    (h : acc.Nodup) :
    (ts.foldl (fun acc tr => (triEdges tr).foldl insertEdge acc) acc).Nodup := by
  induction ts generalizing acc with
  | nil => exact h
  | cons hd tl ih =>
      rw [List.foldl_cons]
      exact ih _ (nodup_foldl_insertEdge _ _ h)

theorem nodup_collectEdges (ts : List Tri) : (collectEdges ts).Nodup :=
  nodup_collectEdges_aux ts [] List.nodup_nil

theorem build_springs_pairs (vertices : ℕ → Vec3) (ts : List Tri) :
    (build_springs vertices ts).map (fun s => (s.i, s.j)) = collectEdges ts := by
  unfold build_springs
  rw [List.map_map]
  have h : ((fun s : Spring => (s.i, s.j)) ∘ springOfEdge vertices) = id := by
    funext e
    rfl
  rw [h, List.map_id]

/-- Counterexample to C2 as stated: for the degenerate triangle (0, 0, 1)
the builder emits a spring whose two endpoints are both vertex 0, so the
output does not satisfy vertex_i < vertex_j for every triangle array. -/
theorem build_springs_counterexample :
    ¬ (∀ s ∈ build_springs (fun _ => (0 : Vec3)) [Tri.mk 0 0 1], s.i < s.j) := by
  intro h
  have hmem : ((0, 0) : ℕ × ℕ) ∈ collectEdges [Tri.mk 0 0 1] := by decide
  have hlt := h (springOfEdge (fun _ => 0) ((0, 0) : ℕ × ℕ))
    (List.mem_map_of_mem _ hmem)
  exact Nat.lt_irrefl 0 hlt

/-- Claim C2 (amended): for every triangle array whose triangles have
pairwise-distinct vertex indices, `build_springs` returns exactly one
spring per unique undirected mesh edge (no duplicate (i, j) pairs, each
spring stored with vertex_i < vertex_j), with rest_length the Euclidean
distance between the endpoint positions, classified as circumferential
when the axial (z) displacement is below 25 percent of the ring spacing
and axial otherwise, with the corresponding stiffness formulas. -/
theorem build_springs_unique_edges (vertices : ℕ → Vec3) (triangles : List Tri)
    (hdist : ∀ tr ∈ triangles, tr.a ≠ tr.b ∧ tr.b ≠ tr.c ∧ tr.c ≠ tr.a) :
    ((build_springs vertices triangles).map (fun s => (s.i, s.j))).Nodup ∧
    (∀ p : ℕ × ℕ,
      p ∈ (build_springs vertices triangles).map (fun s => (s.i, s.j)) ↔
        ∃ tr ∈ triangles, p ∈ triEdges tr) ∧
    (∀ s ∈ build_springs vertices triangles,
      s.i < s.j ∧
      s.rest_length = norm3 (vertices s.i - vertices s.j) ∧
      s.k = (if |(vertices s.i).z - (vertices s.j).z| < 0.25 * RING_SPACING then
          ELASTIC_MODULUS * WALL_THICKNESS * RING_SPACING / s.rest_length
        else
          ELASTIC_MODULUS * WALL_THICKNESS *
            (2 * Real.pi * TUBE_RADIUS / N_CIRCUMFERENTIAL) / s.rest_length)) := by
  refine ⟨?_, ?_, ?_⟩
  · rw [build_springs_pairs]
    exact nodup_collectEdges triangles
  · intro p
    rw [build_springs_pairs, mem_collectEdges]
  · intro s hs
    obtain ⟨e, he, rfl⟩ := List.mem_map.mp hs
    have hij : e.1 < e.2 := by
      obtain ⟨tr, htr, hee⟩ := (mem_collectEdges triangles e).mp he
      obtain ⟨h1, h2, h3⟩ := hdist tr htr
      simp only [triEdges, List.mem_cons, List.not_mem_nil, or_false] at hee
      rcases hee with rfl | rfl | rfl
      · exact min_lt_max.mpr h1
      · exact min_lt_max.mpr h2
      · exact min_lt_max.mpr h3
    exact ⟨hij, rfl, rfl⟩

/-- Witness for the amended C2 on the single triangle (0, 1, 2). -/
theorem build_springs_unique_edges_witness :
    (∀ tr ∈ [Tri.mk 0 1 2], tr.a ≠ tr.b ∧ tr.b ≠ tr.c ∧ tr.c ≠ tr.a) ∧
    (∀ s ∈ build_springs (fun _ => (0 : Vec3)) [Tri.mk 0 1 2], s.i < s.j) := by
  have hd : ∀ tr ∈ [Tri.mk 0 1 2], tr.a ≠ tr.b ∧ tr.b ≠ tr.c ∧ tr.c ≠ tr.a := by
    decide
  exact ⟨hd, fun s hs =>
    ((build_springs_unique_edges (fun _ => 0) [Tri.mk 0 1 2] hd).2.2 s hs).1⟩

theorem advance_frames_eq (cfg : SimConfig) (s : SimState) :
    (advance cfg s).frames =
      if s.nextFrameTime ≤ s.t then s.frames ++ [(advance cfg s).positions]
      else s.frames := rfl

theorem simLoopInterrupted_eq (cfg : SimConfig) :
    ∀ (k fuel : ℕ) (s : SimState), k ≤ fuel →
      (∀ i < k, ((advance cfg)^[i] s).t < cfg.t_end) →
      simLoopInterrupted cfg k fuel s =
        (if ((advance cfg)^[k] s).frames.isEmpty then Except.error ()
         else Except.ok ((advance cfg)^[k] s).frames) := by
  intro k
  induction k with
  | zero =>
      intro fuel s _ _
      cases fuel <;> rfl
  | succ k ih =>
      intro fuel s hk hrun
      obtain ⟨fuel', rfl⟩ : ∃ f', fuel = f' + 1 :=
        ⟨fuel - 1, (Nat.succ_pred_eq_of_pos (lt_of_lt_of_le (Nat.succ_pos k) hk)).symm⟩
      have ht0 : s.t < cfg.t_end := by simpa using hrun 0 (Nat.succ_pos k)
      have hrun' : ∀ i < k, ((advance cfg)^[i] (advance cfg s)).t < cfg.t_end := by
        intro i hi
        have := hrun (i + 1) (Nat.succ_lt_succ hi)
        rwa [Function.iterate_succ_apply] at this
      show (if s.t < cfg.t_end then simLoopInterrupted cfg k fuel' (advance cfg s)
        else Except.ok s.frames) = _
      rw [if_pos ht0, ih fuel' (advance cfg s) (Nat.succ_le_succ_iff.mp hk) hrun',
        ← Function.iterate_succ_apply]

/-- Claim C6: if the simulation loop is interrupted by cancellation
mid-run, it returns exactly the list of frames collected so far whenever
at least one frame exists, and when zero frames have been collected the
interruption is re-raised as a failure rather than returning an empty
result. -/
theorem interrupt_returns_partial_frames (cfg : SimConfig) (k fuel : ℕ)
    (hk : k ≤ fuel)
    (hrun : ∀ i < k, ((advance cfg)^[i] (initState cfg)).t < cfg.t_end) :
    (((advance cfg)^[k] (initState cfg)).frames ≠ [] →
      simLoopInterrupted cfg k fuel (initState cfg) =
        Except.ok ((advance cfg)^[k] (initState cfg)).frames) ∧
    (((advance cfg)^[k] (initState cfg)).frames = [] →
      simLoopInterrupted cfg k fuel (initState cfg) = Except.error ()) := by
  rw [simLoopInterrupted_eq cfg k fuel _ hk hrun]
  constructor
  · intro h
    rw [if_neg (by simpa [List.isEmpty_iff] using h)]
  · intro h
    rw [if_pos (by simpa [List.isEmpty_iff] using h)]

/-- Witness for C6: interrupting the trivial run before its first
iteration, with no collected frames, re-raises the interruption. -/
theorem interrupt_returns_partial_frames_witness :
    (0 ≤ 0) ∧
    (∀ i < 0, ((advance cfgEx)^[i] (initState cfgEx)).t < cfgEx.t_end) ∧
    (((advance cfgEx)^[0] (initState cfgEx)).frames = [] →
      simLoopInterrupted cfgEx 0 0 (initState cfgEx) = Except.error ()) ∧
    (((advance cfgEx)^[0] (initState cfgEx)).frames ≠ [] →
      simLoopInterrupted cfgEx 0 0 (initState cfgEx) =
        Except.ok ((advance cfgEx)^[0] (initState cfgEx)).frames) := by
  have hrun : ∀ i < 0, ((advance cfgEx)^[i] (initState cfgEx)).t < cfgEx.t_end :=
    fun i hi => absurd hi (Nat.not_lt_zero i)
  have h := interrupt_returns_partial_frames cfgEx 0 0 (le_refl 0) hrun
  exact ⟨le_refl 0, hrun, h.2, h.1⟩

theorem simLoop_frames_prefix (cfg : SimConfig) :
    ∀ (fuel : ℕ) (s : SimState), ∃ tl, (simLoop cfg fuel s).frames = s.frames ++ tl := by
  intro fuel
  induction fuel with
  | zero => exact fun s => ⟨[], (List.append_nil _).symm⟩
  | succ fuel ih =>
      intro s
      simp only [simLoop]
      by_cases h : s.t < cfg.t_end
      · rw [if_pos h]
        obtain ⟨tl, htl⟩ := ih (advance cfg s)
        rw [htl, advance_frames_eq]
        by_cases hrec : s.nextFrameTime ≤ s.t
        · rw [if_pos hrec]
          exact ⟨[(advance cfg s).positions] ++ tl, by rw [List.append_assoc]⟩
        · rw [if_neg hrec]
          exact ⟨tl, rfl⟩
      · rw [if_neg h]
        exact ⟨[], (List.append_nil _).symm⟩

theorem simLoop_frames_from_steps (cfg : SimConfig) :
    ∀ (fuel m : ℕ),
      (∀ fr ∈ ((advance cfg)^[m] (initState cfg)).frames,
        ∃ j, 1 ≤ j ∧ fr = ((advance cfg)^[j] (initState cfg)).positions) →
      ∀ fr ∈ (simLoop cfg fuel ((advance cfg)^[m] (initState cfg))).frames,
        ∃ j, 1 ≤ j ∧ fr = ((advance cfg)^[j] (initState cfg)).positions := by
  intro fuel
  induction fuel with
  | zero => exact fun m h => h
  | succ fuel ih =>
      intro m h
      simp only [simLoop]
      by_cases hc : ((advance cfg)^[m] (initState cfg)).t < cfg.t_end
      · rw [if_pos hc]
        have hnext : ∀ fr ∈ ((advance cfg)^[m + 1] (initState cfg)).frames,
            ∃ j, 1 ≤ j ∧ fr = ((advance cfg)^[j] (initState cfg)).positions := by
          rw [Function.iterate_succ_apply', advance_frames_eq]
          by_cases hrec : ((advance cfg)^[m] (initState cfg)).nextFrameTime ≤
              ((advance cfg)^[m] (initState cfg)).t
          · rw [if_pos hrec]
            intro fr hfr
            rcases List.mem_append.mp hfr with hin | hin
            · exact h fr hin
            · rw [List.mem_singleton] at hin
              exact ⟨m + 1, Nat.succ_le_succ (Nat.zero_le m),
                by rw [hin, Function.iterate_succ_apply']⟩
          · rw [if_neg hrec]
            exact h
        have hres := ih (m + 1) hnext
        rw [Function.iterate_succ_apply'] at hres
        exact hres
      · rw [if_neg hc]
        exact h

/-- Claim C10: the frame-sampling check runs after the velocity and
position updates within each step, so for every run executing at least
one step the first recorded frame is the vertex state after one full
integration step from the initial configuration, and every recorded
frame is the position state after at least one integration step (the
initial positions are never recorded). -/
theorem first_frame_after_one_step (cfg : SimConfig) (h : 0 < cfg.t_end) :
    (simulate cfg).head? = some ((advance cfg (initState cfg)).positions) ∧
    ∀ fr ∈ simulate cfg, ∃ j, 1 ≤ j ∧
      fr = ((advance cfg)^[j] (initState cfg)).positions := by
  constructor
  · show (simLoop cfg (simFuel cfg) (initState cfg)).frames.head? = _
    show (simLoop cfg (⌈cfg.t_end / cfg.dt⌉₊ + 1) (initState cfg)).frames.head? = _
    simp only [simLoop]
    rw [if_pos (show (initState cfg).t < cfg.t_end from h)]
    obtain ⟨tl, htl⟩ :=
      simLoop_frames_prefix cfg ⌈cfg.t_end / cfg.dt⌉₊ (advance cfg (initState cfg))
    rw [htl]
    have hfr : (advance cfg (initState cfg)).frames =
        [(advance cfg (initState cfg)).positions] := by
      rw [advance_frames_eq,
        if_pos (show (initState cfg).nextFrameTime ≤ (initState cfg).t from le_refl 0)]
      rfl
    rw [hfr]
    rfl
  · intro fr hfr
    have h0 : ∀ fr ∈ ((advance cfg)^[0] (initState cfg)).frames,
        ∃ j, 1 ≤ j ∧ fr = ((advance cfg)^[j] (initState cfg)).positions := by
      intro fr hfr0
      exact absurd hfr0 (List.not_mem_nil fr)
    exact simLoop_frames_from_steps cfg (simFuel cfg) 0 h0 fr hfr

/-- Witness for C10 on the trivial configuration with t_end = 1. -/
theorem first_frame_after_one_step_witness :
    (0 : ℝ) < cfgEx.t_end ∧
    (simulate cfgEx).head? = some ((advance cfgEx (initState cfgEx)).positions) ∧
    ∀ fr ∈ simulate cfgEx, ∃ j, 1 ≤ j ∧
      fr = ((advance cfgEx)^[j] (initState cfgEx)).positions := by
  have h : (0 : ℝ) < cfgEx.t_end := by norm_num [cfgEx]
  exact ⟨h, (first_frame_after_one_step cfgEx h).1, (first_frame_after_one_step cfgEx h).2⟩

theorem advance_t_eq (cfg : SimConfig) (s : SimState) :
    (advance cfg s).t = s.t + cfg.dt := rfl

theorem advance_nf_eq (cfg : SimConfig) (s : SimState) :
    (advance cfg s).nextFrameTime =
      if s.nextFrameTime ≤ s.t then s.nextFrameTime + 1 / cfg.fps
      else s.nextFrameTime := rfl

theorem advance_inv (cfg : SimConfig) (hdt : 0 < cfg.dt) (hc : cfg.dt ≤ 1 / cfg.fps)
    (s : SimState) (ht : s.t < cfg.t_end)
    (h1 : s.nextFrameTime = s.frames.length * (1 / cfg.fps))
    (h2 : s.t - cfg.dt < s.nextFrameTime)
    (h3 : s.frames = [] ∨ ((s.frames.length : ℝ) - 1) * (1 / cfg.fps) < cfg.t_end) :
    (advance cfg s).nextFrameTime = (advance cfg s).frames.length * (1 / cfg.fps) ∧
    (advance cfg s).t - cfg.dt < (advance cfg s).nextFrameTime ∧
    ((advance cfg s).frames = [] ∨
      (((advance cfg s).frames.length : ℝ) - 1) * (1 / cfg.fps) < cfg.t_end) := by
  rw [advance_nf_eq, advance_frames_eq, advance_t_eq]
  by_cases hrec : s.nextFrameTime ≤ s.t
  · rw [if_pos hrec, if_pos hrec]
    refine ⟨?_, ?_, Or.inr ?_⟩
    · rw [List.length_append, List.length_singleton, h1]
      push_cast
      ring
    · linarith
    · rw [List.length_append, List.length_singleton]
      have hnf : (s.frames.length : ℝ) * (1 / cfg.fps) ≤ s.t := h1 ▸ hrec
      have heq : ((s.frames.length + 1 : ℕ) : ℝ) - 1 = (s.frames.length : ℝ) := by
        push_cast
        ring
      rw [heq]
      linarith
  · rw [if_neg hrec, if_neg hrec]
    have hlt : s.t < s.nextFrameTime := lt_of_not_le hrec
    exact ⟨h1, by linarith, h3⟩

theorem simLoop_inv (cfg : SimConfig) (hdt : 0 < cfg.dt) (hc : cfg.dt ≤ 1 / cfg.fps) :
    ∀ (fuel : ℕ) (s : SimState),
      s.nextFrameTime = s.frames.length * (1 / cfg.fps) →
      s.t - cfg.dt < s.nextFrameTime →
      (s.frames = [] ∨ ((s.frames.length : ℝ) - 1) * (1 / cfg.fps) < cfg.t_end) →
      ((simLoop cfg fuel s).nextFrameTime =
          (simLoop cfg fuel s).frames.length * (1 / cfg.fps) ∧
        (simLoop cfg fuel s).t - cfg.dt < (simLoop cfg fuel s).nextFrameTime ∧
        ((simLoop cfg fuel s).frames = [] ∨
          (((simLoop cfg fuel s).frames.length : ℝ) - 1) * (1 / cfg.fps) < cfg.t_end)) := by
  intro fuel
  induction fuel with
  | zero => exact fun s h1 h2 h3 => ⟨h1, h2, h3⟩
  | succ fuel ih =>
      intro s h1 h2 h3
      simp only [simLoop]
      by_cases hcond : s.t < cfg.t_end
      · rw [if_pos hcond]
        obtain ⟨a1, a2, a3⟩ := advance_inv cfg hdt hc s hcond h1 h2 h3
        exact ih (advance cfg s) a1 a2 a3
      · rw [if_neg hcond]
        exact ⟨h1, h2, h3⟩

theorem simLoop_t_ge (cfg : SimConfig) (hdt : 0 ≤ cfg.dt) :
    ∀ (fuel : ℕ) (s : SimState),
      min cfg.t_end (s.t + (fuel : ℝ) * cfg.dt) ≤ (simLoop cfg fuel s).t := by
  intro fuel
  induction fuel with
  | zero =>
      intro s
      have heq : s.t + ((0 : ℕ) : ℝ) * cfg.dt = s.t := by push_cast; ring
      rw [heq]
      exact min_le_right _ _
  | succ fuel ih =>
      intro s
      simp only [simLoop]
      by_cases hcond : s.t < cfg.t_end
      · rw [if_pos hcond]
        have hrec := ih (advance cfg s)
        rw [advance_t_eq] at hrec
        have heq : s.t + ((fuel + 1 : ℕ) : ℝ) * cfg.dt =
            s.t + cfg.dt + (fuel : ℝ) * cfg.dt := by push_cast; ring
        rw [heq]
        exact hrec
      · rw [if_neg hcond]
        exact le_trans (min_le_left _ _) (le_of_not_lt hcond)

/-- Claim C5: for a run of `simulate` with duration t_end at frame rate
fps (physics step no coarser than the frame interval), the number of
collected frames is floor(t_end * fps) up to a boundary adjustment of at
most one frame; the final next-frame threshold equals frame count times
1/fps, and the scheduled frame sample times are strictly increasing with
consecutive sample times differing by exactly 1/fps. -/
theorem frame_sampling_cadence (cfg : SimConfig) (hdt : 0 < cfg.dt)
    (hfps : 0 < cfg.fps) (hcoarse : cfg.dt ≤ 1 / cfg.fps) (hD : 0 ≤ cfg.t_end) :
    (⌊cfg.t_end * cfg.fps⌋ ≤ ((simulate cfg).length : ℤ) ∧
      ((simulate cfg).length : ℤ) ≤ ⌊cfg.t_end * cfg.fps⌋ + 1) ∧
    (simulateState cfg).nextFrameTime = (simulate cfg).length * (1 / cfg.fps) ∧
    StrictMono (sampleTime cfg.fps) ∧
    (∀ m : ℕ, sampleTime cfg.fps (m + 1) - sampleTime cfg.fps m = 1 / cfg.fps) := by
  have hfpos : (0 : ℝ) < 1 / cfg.fps := by positivity
  have hinit1 : (initState cfg).nextFrameTime =
      (initState cfg).frames.length * (1 / cfg.fps) := by
    show (0 : ℝ) = ([] : List (ℕ → Vec3)).length * (1 / cfg.fps)
    simp
  have hinit2 : (initState cfg).t - cfg.dt < (initState cfg).nextFrameTime := by
    show (0 : ℝ) - cfg.dt < 0
    linarith
  have hinit3 : (initState cfg).frames = [] ∨
      (((initState cfg).frames.length : ℝ) - 1) * (1 / cfg.fps) < cfg.t_end :=
    Or.inl rfl
  obtain ⟨h1, h2, h3⟩ :=
    simLoop_inv cfg hdt hcoarse (simFuel cfg) (initState cfg) hinit1 hinit2 hinit3
  have hss : simLoop cfg (simFuel cfg) (initState cfg) = simulateState cfg := rfl
  have hfr : (simulateState cfg).frames = simulate cfg := rfl
  rw [hss] at h1 h2 h3
  rw [hfr] at h1 h3
  have hT : cfg.t_end ≤ (simulateState cfg).t := by
    have hlow := simLoop_t_ge cfg (le_of_lt hdt) (simFuel cfg) (initState cfg)
    rw [hss] at hlow
    have hfuel : cfg.t_end ≤ (initState cfg).t + ((simFuel cfg : ℕ) : ℝ) * cfg.dt := by
      show cfg.t_end ≤ 0 + ((⌈cfg.t_end / cfg.dt⌉₊ + 1 : ℕ) : ℝ) * cfg.dt
      have hle : cfg.t_end / cfg.dt ≤ (⌈cfg.t_end / cfg.dt⌉₊ : ℝ) := Nat.le_ceil _
      have he1 : cfg.t_end = cfg.t_end / cfg.dt * cfg.dt := by
        field_simp
      calc cfg.t_end = cfg.t_end / cfg.dt * cfg.dt := he1
        _ ≤ (⌈cfg.t_end / cfg.dt⌉₊ : ℝ) * cfg.dt :=
          mul_le_mul_of_nonneg_right hle (le_of_lt hdt)
        _ ≤ 0 + ((⌈cfg.t_end / cfg.dt⌉₊ + 1 : ℕ) : ℝ) * cfg.dt := by
          push_cast
          nlinarith
    exact le_trans (le_min (le_refl _) hfuel) hlow
  have hlowZ : ⌊cfg.t_end * cfg.fps⌋ ≤ ((simulate cfg).length : ℤ) := by
    have hc1 : cfg.t_end - cfg.dt < ((simulate cfg).length : ℝ) * (1 / cfg.fps) := by
      rw [h1] at h2
      linarith
    have hc2 : cfg.t_end - 1 / cfg.fps < ((simulate cfg).length : ℝ) * (1 / cfg.fps) := by
      linarith
    rw [mul_one_div, lt_div_iff hfps] at hc2
    have hc3 : cfg.t_end * cfg.fps - 1 < ((simulate cfg).length : ℝ) := by
      have he2 : (cfg.t_end - 1 / cfg.fps) * cfg.fps = cfg.t_end * cfg.fps - 1 := by
        field_simp
      linarith [he2 ▸ hc2]
    rw [← Int.lt_add_one_iff, Int.floor_lt]
    push_cast
    linarith
  have hupZ : ((simulate cfg).length : ℤ) ≤ ⌊cfg.t_end * cfg.fps⌋ + 1 := by
    rcases h3 with hemp | hlast
    · rw [hemp]
      have hX := Int.floor_nonneg.mpr (mul_nonneg hD (le_of_lt hfps))
      simp
      omega
    · have hfl : ((simulate cfg).length : ℤ) - 1 ≤ ⌊cfg.t_end * cfg.fps⌋ := by
        rw [Int.le_floor]
        rw [mul_one_div, div_lt_iff hfps] at hlast
        push_cast
        linarith
      omega
  refine ⟨⟨hlowZ, hupZ⟩, h1, ?_, ?_⟩
  · intro a b hab
    unfold sampleTime
    exact mul_lt_mul_of_pos_right (by exact_mod_cast hab) hfpos
  · intro m
    unfold sampleTime
    push_cast
    ring

/-- Witness for C5 on the trivial configuration (t_end = 1, dt = 1,
fps = 1). -/
theorem frame_sampling_cadence_witness :
    ((0 : ℝ) < cfgEx.dt ∧ (0 : ℝ) < cfgEx.fps ∧ cfgEx.dt ≤ 1 / cfgEx.fps ∧
      (0 : ℝ) ≤ cfgEx.t_end) ∧
    (⌊cfgEx.t_end * cfgEx.fps⌋ ≤ ((simulate cfgEx).length : ℤ) ∧
      ((simulate cfgEx).length : ℤ) ≤ ⌊cfgEx.t_end * cfgEx.fps⌋ + 1) ∧
    (simulateState cfgEx).nextFrameTime = (simulate cfgEx).length * (1 / cfgEx.fps) ∧
    StrictMono (sampleTime cfgEx.fps) ∧
    (∀ m : ℕ, sampleTime cfgEx.fps (m + 1) - sampleTime cfgEx.fps m = 1 / cfgEx.fps) := by
  have hdt : (0 : ℝ) < cfgEx.dt := by norm_num [cfgEx]
  have hfps : (0 : ℝ) < cfgEx.fps := by norm_num [cfgEx]
  have hcoarse : cfgEx.dt ≤ 1 / cfgEx.fps := by norm_num [cfgEx]
  have hD : (0 : ℝ) ≤ cfgEx.t_end := by norm_num [cfgEx]
  exact ⟨⟨hdt, hfps, hcoarse, hD⟩, frame_sampling_cadence cfgEx hdt hfps hcoarse hD⟩
